import Mathlib

/-!
Verification of the busefb SPI framebuffer driver (gsebik/buse_fb_driver).

The development shallowly embeds the driver's two cores:

* the frame encoder of `refresh_work_func` (src/busefb.c lines 89-120,
  identical formulas in the generalized variant src/unnamed/part_001
  lines 173-267), which converts a 1bpp linear snapshot into the
  panel/group/register wire format, and

* the refresh scheduler built from `refresh_timer_callback`,
  `refresh_work_func`, `process_next_group`, `cs_delay_timer_callback`
  and `cs_reassert_work_func` (src/busefb.c lines 44-128), together with
  the teardown sequence of `busefb_remove` (src/busefb.c lines 227-237).

Machine bytes are modelled as `Nat` values below 256; every arithmetic
step of the C code keeps its operands far below 2^8 resp. 2^31, so no
truncation is needed (selector values are below 4, OR-ing bytes below
256 stays below 256, and all index arithmetic fits easily in `int`).
Buffers are `List Nat`, and every C buffer access is bounds checked in
the embedding: an out-of-range access yields `none`.
-/

set_option maxRecDepth 8000

namespace Busefb

/-- Geometry constants of the display, mirroring `struct busefb_config`
(src/unnamed/part_001 lines 41-59) and the macros WIDTH .. FRAME_BYTES
(src/busefb.c lines 13-23). -/
structure Geometry where
  width : Nat
  height : Nat
  panels : Nat
  regs_per_col : Nat
  panel_cols : Nat
  cols_per_group : Nat
  panel_bytes : Nat
  group_bytes : Nat
  frame_bytes : Nat
deriving DecidableEq, Repr

/-- Derived-constant computation performed in `busefb_probe`
(src/unnamed/part_001 lines 307-329):
`regs_per_col = DIV_ROUND_UP(height, 8)`, `panel_cols = width / panels`,
`cols_per_group = panel_cols / 4`,
`panel_bytes = cols_per_group * regs_per_col + 1`,
`group_bytes = panels * panel_bytes`, `frame_bytes = 4 * group_bytes`. -/
def resolve_geometry (width height panels : Nat) : Geometry :=
  { width := width
    height := height
    panels := panels
    regs_per_col := (height + 7) / 8
    panel_cols := width / panels
    cols_per_group := width / panels / 4
    panel_bytes := (width / panels / 4) * ((height + 7) / 8) + 1
    group_bytes := panels * ((width / panels / 4) * ((height + 7) / 8) + 1)
    frame_bytes := 4 * (panels * ((width / panels / 4) * ((height + 7) / 8) + 1)) }

/-- The geometry the spec declares valid: positive dimensions, width
divisible by the panel count, and panel columns divisible by 4
(spec section 3 invariant and section 4.1). -/
def ValidGeometry (width height panels : Nat) : Prop :=
  0 < width ∧ 0 < height ∧ 0 < panels ∧
    width % panels = 0 ∧ (width / panels) % 4 = 0

instance (width height panels : Nat) :
    Decidable (ValidGeometry width height panels) := by
  unfold ValidGeometry
  infer_instance

/-- The compiled-in geometry of src/busefb.c (WIDTH 128, HEIGHT 19,
PANELS 4, src/busefb.c lines 13-23), which is also the device-tree
default of src/unnamed/part_001 line 289. -/
def busefbConfig : Geometry := resolve_geometry 128 19 4

/-- Linear index of the source bit read for loop pixel `(y, x)`:
`idx = y * WIDTH + x_mirrored` with `x_mirrored = WIDTH - 1 - x`
(src/busefb.c lines 101-102). -/
def pixIdx (cfg : Geometry) (y x : Nat) : Nat :=
  y * cfg.width + (cfg.width - 1 - x)

/-- Read of the source pixel bit: `vram_snapshot[idx >> 3] & (1 << (idx & 7))`
(src/busefb.c line 103); `none` when the byte index is outside the
snapshot buffer. -/
def litPixel (cfg : Geometry) (vram : List Nat) (y x : Nat) : Option Bool :=
  (vram[pixIdx cfg y x / 8]?).map (fun b => b.testBit (pixIdx cfg y x % 8))

/-- Destination block base: `base = grp * GROUP_BYTES + panel * PANEL_BYTES`
with `grp = x % GROUPS` and `panel = x / PANEL_COLS`
(src/busefb.c lines 109-112). -/
def pixBase (cfg : Geometry) (x : Nat) : Nat :=
  (x % 4) * cfg.group_bytes + (x / cfg.panel_cols) * cfg.panel_bytes

/-- Destination byte offset: `base + 1 + cp * REGS_PER_COL + reg` with
`cp = (x % PANEL_COLS) / GROUPS ^ 0x01` and `reg = y_rev / 8`,
`y_rev = HEIGHT - 1 - y` (src/busefb.c lines 106-114). -/
def pixOff (cfg : Geometry) (y x : Nat) : Nat :=
  pixBase cfg x + 1 + ((x % cfg.panel_cols / 4) ^^^ 1) * cfg.regs_per_col +
    (cfg.height - 1 - y) / 8

/-- Destination bit position: `bit = 7 - (y_rev % 8)` (src/busefb.c line 108). -/
def pixBit (cfg : Geometry) (y : Nat) : Nat :=
  7 - (cfg.height - 1 - y) % 8

/-- The two stores of the loop body (src/busefb.c lines 113-114):
`frame_buffer[base] = grp;` and
`frame_buffer[base + 1 + cp*REGS_PER_COL + reg] |= 1 << bit;`.
Returns `none` when either store would be out of bounds of the frame
buffer (in C this would be a buffer overflow, not an error return). -/
def writePixel (cfg : Geometry) (y x : Nat) (frame : List Nat) :
    Option (List Nat) :=
  if pixBase cfg x < frame.length then
    match (frame.set (pixBase cfg x) (x % 4))[pixOff cfg y x]? with
    | some old =>
        some ((frame.set (pixBase cfg x) (x % 4)).set (pixOff cfg y x)
          (old ||| 2 ^ pixBit cfg y))
    | none => none
  else none

/-- One iteration of the double loop of `refresh_work_func`
(src/busefb.c lines 99-116): skip the pixel when the source bit is
clear, otherwise perform the two stores. -/
def stepPixel (cfg : Geometry) (vram : List Nat) (y x : Nat)
    (frame : List Nat) : Option (List Nat) :=
  match litPixel cfg vram y x with
  | none => none
  | some false => some frame
  | some true => writePixel cfg y x frame

/-- Iteration order of the double loop: `y` outer over `[0, HEIGHT)`,
`x` inner over `[0, WIDTH)` (src/busefb.c lines 99-100). -/
def pixelPairs (cfg : Geometry) : List (Nat × Nat) :=
  (List.range cfg.height).flatMap
    (fun y => (List.range cfg.width).map (fun x => (y, x)))

/-- The frame encoder of `refresh_work_func` (src/busefb.c lines 96-116):
the frame buffer is cleared (`memset(par->frame_buffer, 0, FRAME_BYTES)`)
and the double loop transfers every set snapshot bit. -/
def encode (cfg : Geometry) (vram : List Nat) : Option (List Nat) :=
  (pixelPairs cfg).foldl
    (fun acc p => acc.bind (stepPixel cfg vram p.1 p.2))
    (some (List.replicate cfg.frame_bytes 0))

/-- Snapshot holding a single set bit at linear index `i`
(all other bits clear); length is the snapshot byte count `len`. -/
def singleSnap (len i : Nat) : List Nat :=
  (List.replicate len 0).set (i / 8) (2 ^ (i % 8))

/-- Every bit set in byte `a` is also set in byte `b`. -/
def ByteLe (a b : Nat) : Prop := a ||| b = b

/-- Pointwise bit inclusion of equal-length byte buffers; on snapshots
this says every set pixel of the first is set in the second, on frames
that every set frame bit of the first is set in the second. -/
def BitsLe (xs ys : List Nat) : Prop :=
  xs.length = ys.length ∧ ∀ i, i < xs.length → ByteLe (xs.getD i 0) (ys.getD i 0)

instance (a b : Nat) : Decidable (ByteLe a b) := by
  unfold ByteLe; infer_instance

instance (xs ys : List Nat) : Decidable (BitsLe xs ys) := by
  unfold BitsLe; infer_instance

/-- Selector-byte invariant maintained by the encoder loop on any
partially built frame: a byte at a block-start offset is either still
zero or already holds its block's group index. -/
def SelInv (cfg : Geometry) (f : List Nat) : Prop :=
  ∀ b, b < cfg.frame_bytes → b % cfg.panel_bytes = 0 →
    f.getD b 0 = 0 ∨ f.getD b 0 = b / cfg.panel_bytes / cfg.panels

/-! ### The refresh scheduler of src/busefb.c

The scheduler is spread over five handlers (src/busefb.c lines 44-128):
`refresh_timer_callback` (the periodic tick, queueing `refresh_work`),
`refresh_work_func` (snapshot + encode, `current_group = 0`, then
`process_next_group`), `process_next_group` (assert CS, blocking
`spi_sync` of one group, deassert CS, start the 50 microsecond hold
timer, or reset to idle when all four groups are done),
`cs_delay_timer_callback` (hold expiry, queueing `cs_reassert_work`) and
`cs_reassert_work_func` (reassert CS, `current_group++`, next group).
The embedding is an event-labelled step function over the spec's
`RefreshState` states; each transition mirrors one handler activation
on the driver's single-threaded workqueue. -/

/-- RefreshState of spec section 3: the control point of the refresh
cycle, with `transmitting g`/`holding g` tracking `par->current_group`. -/
inductive RState where
  | idle
  | encoding
  | transmitting (g : Nat)
  | holding (g : Nat)
deriving DecidableEq, Repr

/-- Events driving the scheduler: the periodic refresh tick, completion
of the snapshot+encode phase of `refresh_work_func`, return of the
blocking `spi_sync` call (carrying its ignored success flag), and expiry
of the chip-select hold timer. -/
inductive Event where
  | tick
  | encodeDone
  | spiDone (ok : Bool)
  | holdFire
deriving DecidableEq, Repr

/-- Externally visible actions of a transition: chip-select writes
(`gpiod_set_value`), start of a group transfer (`spi_sync`), arming the
hold timer (`hrtimer_start`), and a driver warning (`dev_warn`; no
handler of src/busefb.c contains one). -/
inductive Action where
  | csSet (v : Nat)
  | spiStart (g : Nat)
  | armHold
  | warn
deriving DecidableEq, Repr

/-- One handler activation of the busefb scheduler.

* `idle` + `tick`: `refresh_timer_callback` queues `refresh_work`, which
  runs at once on the empty single-threaded workqueue and starts the
  snapshot + encode phase (src/busefb.c lines 122-128, 89-98).
* `encoding` + `encodeDone`: `refresh_work_func` finishes the pixel
  loop, resets `current_group = 0` and calls `process_next_group`, which
  asserts CS and issues the group-0 transfer (lines 118-119, 68-80).
* `transmitting g` + `spiDone ok`: `spi_sync` returns; its status `ok`
  is discarded (line 80 ignores the return value), CS is deasserted and
  the hold timer armed (lines 80-86).
* `holding g` + `holdFire`: the hold timer queues `cs_reassert_work`,
  which reasserts CS, increments `current_group` and either issues the
  next group or resets to idle after group 3 (lines 54-59, 46-52, 61-66).
* `holding g` + `tick`: the workqueue is empty while the hold timer is
  pending, so the queued `refresh_work` runs immediately and begins a
  fresh encode while the previous cycle's hold timer is still in flight
  (lines 122-128, 89-98); nothing in the driver coalesces that tick.
* Any other pairing leaves the state unchanged: while a work item is
  running, a newly queued item waits on the single-threaded workqueue,
  and the remaining events cannot occur in those states. -/
def next : RState → Event → RState × List Action
  | .idle, .tick => (.encoding, [])
  | .encoding, .encodeDone => (.transmitting 0, [.csSet 1, .spiStart 0])
  | .transmitting g, .spiDone _ => (.holding g, [.csSet 0, .armHold])
  | .holding g, .holdFire =>
      if g + 1 ≥ 4 then (.idle, [.csSet 1])
      else (.transmitting (g + 1), [.csSet 1, .csSet 1, .spiStart (g + 1)])
  | .holding _, .tick => (.encoding, [])
  | s, _ => (s, [])

/-- Final state after a sequence of events. -/
def runEvents (s : RState) : List Event → RState
  | [] => s
  | e :: es => runEvents (next s e).1 es

/-- All states visited while consuming a sequence of events. -/
def stateTrace (s : RState) : List Event → List RState
  | [] => [s]
  | e :: es => s :: stateTrace (next s e).1 es

/-- All actions emitted while consuming a sequence of events. -/
def actionsOf (s : RState) : List Event → List Action
  | [] => []
  | e :: es => (next s e).2 ++ actionsOf (next s e).1 es

/-- The group indices of the `spiStart` actions in a list. -/
def spiStarts (l : List Action) : List Nat :=
  l.filterMap (fun a => match a with | .spiStart g => some g | _ => none)

/-- The canonical event order of one undisturbed refresh cycle: a tick,
the encode phase, then for each group a transfer completion followed by
a hold expiry. -/
def cycleEvents : List Event :=
  [.tick, .encodeDone,
   .spiDone true, .holdFire, .spiDone true, .holdFire,
   .spiDone true, .holdFire, .spiDone true, .holdFire]

/-- Same cycle, with the bus reporting failure for the group-1 write. -/
def cycleEventsFail1 : List Event :=
  [.tick, .encodeDone,
   .spiDone true, .holdFire, .spiDone false, .holdFire,
   .spiDone true, .holdFire, .spiDone true, .holdFire]

/-! ### Teardown (busefb_remove) as an interleaving model

`busefb_remove` (src/busefb.c lines 227-237) runs, in order:
`hrtimer_cancel(&par->refresh_timer)`, `hrtimer_cancel(&par->cs_delay_timer)`,
`unregister_framebuffer`, `destroy_workqueue` (which waits for queued
work to finish), then `vfree` of the buffers. Concurrently, queued work
items run on the workqueue and armed timers fire. The model makes each
of these a guarded atomic step so that interleavings are explicit. -/

/-- Joint state of the remover thread, the workqueue and the two
hrtimers of `struct busefb_par`. -/
structure TearState where
  rtArmed : Bool
  cstArmed : Bool
  refreshQueued : Bool
  csWorkQueued : Bool
  wqAlive : Bool
  freed : Bool
  removePc : Nat
  curGroup : Nat
  uafTimerCb : Bool
deriving DecidableEq, Repr

/-- Initial state for a teardown race: the refresh hrtimer is armed and
has just queued `refresh_work` (its callback runs independently of
`busefb_remove`), no transfer chain is active, and `busefb_remove` is
about to execute its first statement. -/
def tearInit : TearState :=
  { rtArmed := true, cstArmed := false, refreshQueued := true,
    csWorkQueued := false, wqAlive := true, freed := false,
    removePc := 0, curGroup := 0, uafTimerCb := false }

/-- Actors that can take the next step in an interleaving. -/
inductive TearEv where
  | rtFire
  | cstFire
  | runRefreshWork
  | runCsWork
  | cancelRT
  | cancelCST
  | unregisterFb
  | destroyWq
  | freeBufs
deriving DecidableEq, Repr

/-- One atomic step of the teardown interleaving; `none` when the actor
cannot step (guard false).

* `rtFire`: `refresh_timer_callback` queues `refresh_work` (src/busefb.c
  lines 122-128); only possible while the refresh timer is armed.
* `cstFire`: `cs_delay_timer_callback` queues `cs_reassert_work` on
  `par->wq` (lines 54-59); possible whenever the hold timer is armed —
  `hrtimer_cancel` in `busefb_remove` only stops it if it is armed at
  that moment. If the buffers have already been freed, this is a timer
  callback executing against released driver state, recorded in
  `uafTimerCb`.
* `runRefreshWork`: `refresh_work_func` runs a queued item: it reads the
  snapshot and frame buffers, resets `current_group`, transfers group 0
  and re-arms the hold timer via `hrtimer_start` (lines 89-120, 84-86).
* `runCsWork`: `cs_reassert_work_func` runs a queued item: increments
  `current_group` and either transfers the next group (re-arming the
  hold timer) or resets to 0 (lines 46-52, 61-87).
* `cancelRT`, `cancelCST`, `unregisterFb`, `destroyWq`, `freeBufs`: the
  successive statements of `busefb_remove` (lines 229-236);
  `destroyWq` waits for the queue to drain, so it is only enabled once
  no work item is pending. -/
def tearStep (s : TearState) : TearEv → Option TearState
  | .rtFire =>
      if s.rtArmed then some { s with refreshQueued := true } else none
  | .cstFire =>
      if s.cstArmed then
        some { s with cstArmed := false, csWorkQueued := true,
                      uafTimerCb := s.uafTimerCb || s.freed }
      else none
  | .runRefreshWork =>
      if s.refreshQueued && s.wqAlive then
        some { s with refreshQueued := false, curGroup := 0, cstArmed := true }
      else none
  | .runCsWork =>
      if s.csWorkQueued && s.wqAlive then
        some (if s.curGroup + 1 ≥ 4 then
                { s with csWorkQueued := false, curGroup := 0 }
              else
                { s with csWorkQueued := false, curGroup := s.curGroup + 1,
                         cstArmed := true })
      else none
  | .cancelRT =>
      if s.removePc = 0 then some { s with rtArmed := false, removePc := 1 }
      else none
  | .cancelCST =>
      if s.removePc = 1 then some { s with cstArmed := false, removePc := 2 }
      else none
  | .unregisterFb =>
      if s.removePc = 2 then some { s with removePc := 3 } else none
  | .destroyWq =>
      if s.removePc = 3 && !s.refreshQueued && !s.csWorkQueued then
        some { s with wqAlive := false, removePc := 4 }
      else none
  | .freeBufs =>
      if s.removePc = 4 then some { s with freed := true, removePc := 5 }
      else none

/-- Run one interleaving; `none` when some step is not enabled. -/
def tearRun (s : TearState) : List TearEv → Option TearState
  | [] => some s
  | e :: es => (tearStep s e).bind (fun s2 => tearRun s2 es)

/-- The racy interleaving: `busefb_remove` cancels both timers, but the
still-queued `refresh_work` runs afterwards and re-arms the hold timer,
which then fires after `destroy_workqueue` and the `vfree` calls. -/
def tearBadSchedule : List TearEv :=
  [.cancelRT, .cancelCST, .runRefreshWork, .unregisterFb, .destroyWq,
   .freeBufs, .cstFire]

/-! ### Arithmetic helpers -/

/-- XOR with 1 increments an even number and decrements an odd one;
this is the column pair swap `cp = ... ^ 0x01` of src/busefb.c line 111. -/
theorem xor_one_eq (q : Nat) : q ^^^ 1 = if q % 2 = 0 then q + 1 else q - 1 := by
  apply Nat.eq_of_testBit_eq
  intro i
  cases i with
  | zero =>
      rw [Nat.testBit_xor, Nat.testBit_zero, Nat.testBit_zero]
      rcases Nat.mod_two_eq_zero_or_one q with h | h
      · rw [if_pos h, Nat.testBit_zero]
        have h1 : ¬ q % 2 = 1 := by omega
        have h2 : (q + 1) % 2 = 1 := by omega
        simp [h1, h2]
      · rw [if_neg (by omega), Nat.testBit_zero]
        have h2 : ¬ (q - 1) % 2 = 1 := by omega
        simp [h, h2]
  | succ j =>
      rw [Nat.testBit_xor, Nat.testBit_succ, Nat.testBit_succ]
      have e2 : (1 : Nat) / 2 = 0 := by norm_num
      rw [e2, Nat.zero_testBit, Bool.xor_false]
      rcases Nat.mod_two_eq_zero_or_one q with h | h
      · rw [if_pos h, Nat.testBit_succ]
        have : (q + 1) / 2 = q / 2 := by omega
        rw [this]
      · rw [if_neg (by omega), Nat.testBit_succ]
        have : (q - 1) / 2 = q / 2 := by omega
        rw [this]

/-- The pair swap keeps column indices inside an even-sized column range. -/
theorem xor_one_lt {q c : Nat} (hc : c % 2 = 0) (hq : q < c) : q ^^^ 1 < c := by
  rw [xor_one_eq]
  rcases Nat.mod_two_eq_zero_or_one q with h | h
  · rw [if_pos h]; omega
  · rw [if_neg (by omega)]; omega

/-! ### The pixel iteration list -/

theorem mem_pixelPairs {cfg : Geometry} {p : Nat × Nat} :
    p ∈ pixelPairs cfg ↔ p.1 < cfg.height ∧ p.2 < cfg.width := by
  cases p with
  | mk y x =>
    simp only [pixelPairs, List.mem_flatMap, List.mem_map, List.mem_range]
    constructor
    · rintro ⟨y1, hy1, x1, hx1, h⟩
      cases h
      exact ⟨hy1, hx1⟩
    · rintro ⟨hy, hx⟩
      exact ⟨y, hy, x, hx, rfl⟩

theorem nodup_pixelPairs (cfg : Geometry) : (pixelPairs cfg).Nodup := by
  rw [pixelPairs, List.nodup_flatMap]
  constructor
  · intro y _
    exact (List.nodup_range cfg.width).map (fun a b h => (Prod.mk.injEq ..).mp h |>.2)
  · have : ∀ a b : Nat, a ≠ b →
        (List.Disjoint on fun y => (List.range cfg.width).map fun x => (y, x)) a b := by
      intro a b hab
      intro p hpa hpb
      simp only [Function.onFun, List.mem_map, List.mem_range] at hpa hpb
      obtain ⟨xa, _, rfl⟩ := hpa
      obtain ⟨xb, _, h2⟩ := hpb
      exact hab ((Prod.mk.injEq ..).mp h2 |>.1).symm
    exact List.Pairwise.imp_of_mem (fun {a b} _ _ h => this a b h)
      ((List.nodup_range cfg.height).imp (fun h => h))

/-! ### Fold lemmas for the encoder loop -/

/-- Folding the loop body over pixels whose source bits are all clear
leaves the frame unchanged. -/
theorem foldl_skip {cfg : Geometry} {vram : List Nat} {l : List (Nat × Nat)}
    (h : ∀ p ∈ l, ∀ fr : List Nat, stepPixel cfg vram p.1 p.2 fr = some fr) :
    ∀ fr : List Nat,
      l.foldl (fun acc p => acc.bind (stepPixel cfg vram p.1 p.2)) (some fr) =
        some fr := by
  induction l with
  | nil => intro fr; rfl
  | cons p l ih =>
      intro fr
      have hp := h p (List.mem_cons_self p l) fr
      simp only [List.foldl_cons, Option.bind, hp]
      exact ih (fun q hq => h q (List.mem_cons_of_mem p hq)) fr

/-- Once the accumulator is `none` the fold stays `none`. -/
theorem foldl_none {cfg : Geometry} {vram : List Nat} (l : List (Nat × Nat)) :
    l.foldl (fun acc p => acc.bind (stepPixel cfg vram p.1 p.2)) none = none := by
  induction l with
  | nil => rfl
  | cons p l ih => simpa using ih

/-- A pixel whose source bit reads clear is skipped whatever the frame is. -/
theorem stepPixel_skip {cfg : Geometry} {vram : List Nat} {y x : Nat}
    (h : litPixel cfg vram y x = some false) (fr : List Nat) :
    stepPixel cfg vram y x fr = some fr := by
  rw [stepPixel, h]

/-! ### Buffer access helpers -/

theorem getD_replicate_zero (n i : Nat) : (List.replicate n (0 : Nat)).getD i 0 = 0 := by
  rw [List.getD_eq_getElem?_getD, List.getElem?_replicate]
  by_cases h : i < n
  · rw [if_pos h]; rfl
  · rw [if_neg h]; rfl

theorem getD_set_self {l : List Nat} {i : Nat} (h : i < l.length) (a : Nat) :
    (l.set i a).getD i 0 = a := by
  rw [List.getD_eq_getElem?_getD, List.getElem?_set_eq_of_lt _ h, Option.getD_some]

theorem getD_set_ne {l : List Nat} {i j : Nat} (h : i ≠ j) (a : Nat) :
    (l.set i a).getD j 0 = l.getD j 0 := by
  rw [List.getD_eq_getElem?_getD, List.getElem?_set_ne h, ← List.getD_eq_getElem?_getD]

/-! ### Index bounds -/

/-- The source index `idx = y*WIDTH + (WIDTH-1-x)` stays below `WIDTH*HEIGHT`. -/
theorem pixIdx_lt {W H P y x : Nat} (hy : y < H) (hx : x < W) :
    pixIdx (resolve_geometry W H P) y x < W * H := by
  have h1 : (y + 1) * W ≤ H * W := Nat.mul_le_mul_right W hy
  have h3 : (y + 1) * W = y * W + W := by ring
  have h4 : H * W = W * H := by ring
  show y * W + (W - 1 - x) < W * H
  omega

/-- The snapshot byte `idx >> 3` read by the loop lies inside a snapshot
of `ceil(WIDTH*HEIGHT/8)` bytes. -/
theorem pixIdx_div_lt {W H P y x : Nat} (hy : y < H) (hx : x < W) :
    pixIdx (resolve_geometry W H P) y x / 8 < (W * H + 7) / 8 := by
  have h := pixIdx_lt (P := P) hy hx
  omega

/-- For a valid geometry with an even number of columns per group, the
destination byte offset of every loop pixel lies inside the frame buffer
(and strictly after the block's selector byte). -/
theorem pixOff_lt {W H P y x : Nat} (hv : ValidGeometry W H P)
    (he : W / P / 4 % 2 = 0) (hy : y < H) (hx : x < W) :
    pixBase (resolve_geometry W H P) x + 1 ≤ pixOff (resolve_geometry W H P) y x ∧
      pixOff (resolve_geometry W H P) y x < (resolve_geometry W H P).frame_bytes := by
  obtain ⟨hW, hH, hP, hWP, h4⟩ := hv
  have hcomm : W / P * P = P * (W / P) := Nat.mul_comm _ _
  have hWpc : W = P * (W / P) := by
    have := Nat.div_mul_cancel (Nat.dvd_of_mod_eq_zero hWP)
    omega
  have hpc0 : 0 < W / P := by
    rcases Nat.eq_zero_or_pos (W / P) with h0 | h0
    · rw [h0, Nat.mul_zero] at hWpc; omega
    · exact h0
  have hpc4 : W / P = 4 * (W / P / 4) := by
    have := Nat.div_mul_cancel (Nat.dvd_of_mod_eq_zero h4)
    omega
  have hpanel : x / (W / P) < P :=
    (Nat.div_lt_iff_lt_mul hpc0).mpr (by omega)
  have hq : x % (W / P) / 4 < W / P / 4 := by
    have hm : x % (W / P) < W / P := Nat.mod_lt _ hpc0
    omega
  have hcp : (x % (W / P) / 4) ^^^ 1 < W / P / 4 := xor_one_lt he hq
  have hreg : (H - 1 - y) / 8 < (H + 7) / 8 := by omega
  have hgrp : x % 4 < 4 := Nat.mod_lt _ (by omega)
  show (x % 4) * ((resolve_geometry W H P).group_bytes) +
      (x / (W / P)) * ((resolve_geometry W H P).panel_bytes) + 1 ≤ _ ∧ _
  simp only [pixOff, pixBase, resolve_geometry]
  set rpc := (H + 7) / 8 with hrpc
  set pc := W / P with hpc
  set c := pc / 4 with hc
  set pB := c * rpc + 1 with hpB
  set gB := P * pB with hgB
  have m1 : (x % 4 + 1) * gB ≤ 4 * gB := Nat.mul_le_mul_right gB (by omega)
  have m2 : (x / pc + 1) * pB ≤ P * pB := Nat.mul_le_mul_right pB hpanel
  have m3 : ((x % pc / 4 ^^^ 1) + 1) * rpc ≤ c * rpc := Nat.mul_le_mul_right rpc hcp
  have e1 : (x % 4 + 1) * gB = x % 4 * gB + gB := by ring
  have e2 : (x / pc + 1) * pB = x / pc * pB + pB := by ring
  have e3 : ((x % pc / 4 ^^^ 1) + 1) * rpc = (x % pc / 4 ^^^ 1) * rpc + rpc := by ring
  omega

/-- Equal getElem and getD for an in-range index. -/
theorem getElem_eq_getD {l : List Nat} {i : Nat} (h : i < l.length) :
    l[i] = l.getD i 0 := by
  rw [List.getD_eq_getElem?_getD, List.getElem?_eq_getElem h, Option.getD_some]

/-- When both destination indices are in range, `writePixel` performs
the two stores of the loop body and succeeds. -/
theorem writePixel_eq {cfg : Geometry} {y x : Nat} {frame : List Nat}
    (hb : pixBase cfg x < frame.length) (ho : pixOff cfg y x < frame.length) :
    writePixel cfg y x frame =
      some ((frame.set (pixBase cfg x) (x % 4)).set (pixOff cfg y x)
        ((frame.set (pixBase cfg x) (x % 4)).getD (pixOff cfg y x) 0 |||
          2 ^ pixBit cfg y)) := by
  have ho2 : pixOff cfg y x < (frame.set (pixBase cfg x) (x % 4)).length := by
    rw [List.length_set]; exact ho
  rw [writePixel, if_pos hb, List.getElem?_eq_getElem ho2, getElem_eq_getD ho2]

/-- The loop body always succeeds for in-range pixels over a valid,
even-columns geometry, and preserves the frame length. -/
theorem stepPixel_some {W H P y x : Nat} (hv : ValidGeometry W H P)
    (he : W / P / 4 % 2 = 0) (hy : y < H) (hx : x < W) {vram : List Nat}
    (hlen : vram.length = (W * H + 7) / 8) {frame : List Nat}
    (hf : frame.length = (resolve_geometry W H P).frame_bytes) :
    ∃ f2, stepPixel (resolve_geometry W H P) vram y x frame = some f2 ∧
      f2.length = (resolve_geometry W H P).frame_bytes := by
  have hJ : pixIdx (resolve_geometry W H P) y x / 8 < vram.length := by
    rw [hlen]; exact pixIdx_div_lt hy hx
  cases hbit : (vram[pixIdx (resolve_geometry W H P) y x / 8]).testBit
      (pixIdx (resolve_geometry W H P) y x % 8) with
  | false =>
      refine ⟨frame, ?_, hf⟩
      rw [stepPixel, litPixel, List.getElem?_eq_getElem hJ, Option.map_some', hbit]
  | true =>
      obtain ⟨h1, h2⟩ := pixOff_lt hv he hy hx
      have hb : pixBase (resolve_geometry W H P) x < frame.length := by omega
      have ho : pixOff (resolve_geometry W H P) y x < frame.length := by omega
      refine ⟨(frame.set (pixBase (resolve_geometry W H P) x) (x % 4)).set
          (pixOff (resolve_geometry W H P) y x)
          ((frame.set (pixBase (resolve_geometry W H P) x) (x % 4)).getD
            (pixOff (resolve_geometry W H P) y x) 0 |||
            2 ^ pixBit (resolve_geometry W H P) y),
        ?_, ?_⟩
      · rw [stepPixel, litPixel, List.getElem?_eq_getElem hJ, Option.map_some', hbit,
          writePixel_eq hb ho]
      · rw [List.length_set, List.length_set]; exact hf

/-- The whole pixel fold succeeds and preserves the frame length. -/
theorem foldl_some {W H P : Nat} (hv : ValidGeometry W H P)
    (he : W / P / 4 % 2 = 0) {vram : List Nat}
    (hlen : vram.length = (W * H + 7) / 8) (l : List (Nat × Nat))
    (hl : ∀ p ∈ l, p.1 < H ∧ p.2 < W) :
    ∀ frame : List Nat, frame.length = (resolve_geometry W H P).frame_bytes →
      ∃ f, l.foldl
          (fun acc p => acc.bind (stepPixel (resolve_geometry W H P) vram p.1 p.2))
          (some frame) = some f ∧
        f.length = (resolve_geometry W H P).frame_bytes := by
  induction l with
  | nil => intro frame hf; exact ⟨frame, rfl, hf⟩
  | cons p l ih =>
      intro frame hf
      obtain ⟨hp1, hp2⟩ := hl p (List.mem_cons_self p l)
      obtain ⟨f2, hstep, hlen2⟩ := stepPixel_some hv he hp1 hp2 hlen hf
      simp only [List.foldl_cons, Option.bind, hstep]
      exact ih (fun q hq => hl q (List.mem_cons_of_mem p hq)) f2 hlen2

/-- Totality of the encoder over valid, even-columns geometries. -/
theorem encode_some {W H P : Nat} (hv : ValidGeometry W H P)
    (he : W / P / 4 % 2 = 0) {vram : List Nat}
    (hlen : vram.length = (W * H + 7) / 8) :
    ∃ f, encode (resolve_geometry W H P) vram = some f ∧
      f.length = (resolve_geometry W H P).frame_bytes := by
  apply foldl_some hv he hlen
  · intro p hp
    exact mem_pixelPairs.mp hp
  · exact List.length_replicate _ _

/-! ### The all-clear snapshot -/

/-- Reading any in-range pixel of the all-zero snapshot yields a clear bit. -/
theorem litPixel_zero {W H P y x : Nat} (hy : y < H) (hx : x < W) :
    litPixel (resolve_geometry W H P)
      (List.replicate ((W * H + 7) / 8) 0) y x = some false := by
  rw [litPixel, List.getElem?_replicate, if_pos (pixIdx_div_lt hy hx)]
  simp [Nat.zero_testBit]

/-- Encoding the all-zero snapshot yields the all-zero frame: the loop
body is never entered, so not even the selector bytes are written. -/
theorem encode_zero (W H P : Nat) :
    encode (resolve_geometry W H P) (List.replicate ((W * H + 7) / 8) 0) =
      some (List.replicate (resolve_geometry W H P).frame_bytes 0) := by
  apply foldl_skip
  intro p hp fr
  obtain ⟨h1, h2⟩ := mem_pixelPairs.mp hp
  exact stepPixel_skip (litPixel_zero h1 h2) fr

/-! ### Single-pixel snapshots over the compiled-in geometry -/

/-- Reading loop pixel `(y, x)` of a snapshot holding exactly one set
bit at linear index `i` tests whether `(y, x)` is exactly the pixel
whose source bit sits at index `i`. -/
theorem litPixel_single {i y x : Nat} (hi : i < 2432) (hy : y < 19) (hx : x < 128) :
    litPixel busefbConfig (singleSnap 304 i) y x =
      some (decide (pixIdx busefbConfig y x = i)) := by
  have hJ : pixIdx busefbConfig y x < 2432 := pixIdx_lt hy hx
  have hJ8 : pixIdx busefbConfig y x / 8 < 304 := by omega
  have hi8 : i / 8 < 304 := by omega
  rw [litPixel, singleSnap]
  by_cases hdiv : i / 8 = pixIdx busefbConfig y x / 8
  · rw [hdiv, List.getElem?_set_eq_of_lt _
        (by rw [List.length_replicate]; exact hJ8), Option.map_some',
      Nat.testBit_two_pow]
    congr 1
    rw [decide_eq_decide]
    omega
  · rw [List.getElem?_set_ne hdiv, List.getElem?_replicate, if_pos hJ8,
      Option.map_some', Nat.zero_testBit]
    congr 1
    have : ¬ pixIdx busefbConfig y x = i := by omega
    simp [this]

/-- The selector writes of the busefb geometry stay at offsets that are
multiples of 25 and below 400, and the data write of loop pixel `(y, x)`
lands strictly inside the same panel block. -/
theorem pixOff_lt_busefb {y x : Nat} (hy : y < 19) (hx : x < 128) :
    pixBase busefbConfig x + 1 ≤ pixOff busefbConfig y x ∧
      pixOff busefbConfig y x < 400 :=
  pixOff_lt (by decide) (by decide) hy hx

/-- Encoding a snapshot whose only set bit is the source bit of loop
pixel `(y0, x0)` produces the all-zero frame with exactly the two
stores of that iteration applied: the selector byte of the target block
set to the group index, and the single data bit
`2 ^ pixBit` at byte `pixOff`. -/
theorem encode_single {y0 x0 : Nat} (hy : y0 < 19) (hx : x0 < 128) :
    encode busefbConfig (singleSnap 304 (pixIdx busefbConfig y0 x0)) =
      some (((List.replicate 400 0).set (pixBase busefbConfig x0) (x0 % 4)).set
        (pixOff busefbConfig y0 x0) (2 ^ pixBit busefbConfig y0)) := by
  have hI : pixIdx busefbConfig y0 x0 < 2432 := pixIdx_lt hy hx
  have hmem : ((y0, x0) : Nat × Nat) ∈ pixelPairs busefbConfig :=
    mem_pixelPairs.mpr ⟨hy, hx⟩
  obtain ⟨s, t, hst⟩ := List.append_of_mem hmem
  have hnd : (pixelPairs busefbConfig).Nodup := nodup_pixelPairs busefbConfig
  rw [hst] at hnd
  have hnds := List.nodup_append.mp hnd
  have hnotT : ((y0, x0) : Nat × Nat) ∉ t := (List.nodup_cons.mp hnds.2.1).1
  have hnotS : ((y0, x0) : Nat × Nat) ∉ s := by
    intro hsmem
    exact hnds.2.2 hsmem (List.mem_cons_self _ _)
  have hinj : ∀ p : Nat × Nat, p ∈ pixelPairs busefbConfig → p ≠ (y0, x0) →
      pixIdx busefbConfig p.1 p.2 ≠ pixIdx busefbConfig y0 x0 := by
    intro p hp hne
    obtain ⟨hp1, hp2⟩ := mem_pixelPairs.mp hp
    show ¬ p.1 * 128 + (128 - 1 - p.2) = y0 * 128 + (128 - 1 - x0)
    intro heq
    apply hne
    have h1 : p.1 < 19 := hp1
    have h2 : p.2 < 128 := hp2
    have : p.1 = y0 ∧ p.2 = x0 := by omega
    calc p = (p.1, p.2) := rfl
    _ = (y0, x0) := by rw [this.1, this.2]
  have hskip : ∀ (l : List (Nat × Nat)), (∀ p ∈ l, p ∈ pixelPairs busefbConfig) →
      ((y0, x0) : Nat × Nat) ∉ l → ∀ fr : List Nat,
      l.foldl (fun acc p => acc.bind
        (stepPixel busefbConfig (singleSnap 304 (pixIdx busefbConfig y0 x0)) p.1 p.2))
        (some fr) = some fr := by
    intro l hl hnl
    apply foldl_skip
    intro p hp fr
    obtain ⟨hp1, hp2⟩ := mem_pixelPairs.mp (hl p hp)
    apply stepPixel_skip
    rw [litPixel_single hI hp1 hp2]
    have hne : p ≠ (y0, x0) := by
      intro h
      exact hnl (h ▸ hp)
    have := hinj p (hl p hp) hne
    simp [this]
  rw [encode, hst, List.foldl_append]
  rw [hskip s (fun p hp => hst ▸ List.mem_append_left _ hp) hnotS]
  rw [List.foldl_cons]
  have hlit : litPixel busefbConfig (singleSnap 304 (pixIdx busefbConfig y0 x0)) y0 x0 =
      some true := by
    rw [litPixel_single hI hy hx]
    simp
  obtain ⟨hb1, hb2⟩ := pixOff_lt_busefb hy hx
  have hb : pixBase busefbConfig x0 < (List.replicate 400 (0 : Nat)).length := by
    rw [List.length_replicate]; omega
  have ho : pixOff busefbConfig y0 x0 < (List.replicate 400 (0 : Nat)).length := by
    rw [List.length_replicate]; omega
  have hstep : stepPixel busefbConfig (singleSnap 304 (pixIdx busefbConfig y0 x0)) y0 x0
      (List.replicate 400 0) =
      some (((List.replicate 400 0).set (pixBase busefbConfig x0) (x0 % 4)).set
        (pixOff busefbConfig y0 x0) (2 ^ pixBit busefbConfig y0)) := by
    rw [stepPixel, hlit, writePixel_eq hb ho]
    have hold : ((List.replicate 400 (0 : Nat)).set (pixBase busefbConfig x0)
        (x0 % 4)).getD (pixOff busefbConfig y0 x0) 0 = 0 := by
      rw [getD_set_ne (by omega)]
      exact getD_replicate_zero _ _
    rw [hold, Nat.zero_or]
  show ((some (List.replicate 400 0)).bind
      (stepPixel busefbConfig (singleSnap 304 (pixIdx busefbConfig y0 x0)) y0 x0)
        |> (t.foldl (fun acc p => acc.bind
          (stepPixel busefbConfig (singleSnap 304 (pixIdx busefbConfig y0 x0))
            p.1 p.2)))) = _
  rw [Option.bind, hstep]
  exact hskip t (fun p hp => hst ▸ List.mem_append_right _ (List.mem_cons_of_mem _ hp))
    hnotT _

/-! ### Bitwise inclusion and monotonicity of the encoder -/

theorem byteLe_refl (a : Nat) : ByteLe a a := by
  show a ||| a = a
  simp

theorem byteLe_zero (a : Nat) : ByteLe 0 a := Nat.zero_or a

theorem byteLe_or_right {a b : Nat} (h : ByteLe a b) (m : Nat) :
    ByteLe a (b ||| m) := by
  show a ||| (b ||| m) = b ||| m
  rw [← Nat.or_assoc, h]

theorem byteLe_or_mono {a b : Nat} (h : ByteLe a b) (m : Nat) :
    ByteLe (a ||| m) (b ||| m) := by
  show a ||| m ||| (b ||| m) = b ||| m
  apply Nat.eq_of_testBit_eq
  intro k
  have hk : (a.testBit k || b.testBit k) = b.testBit k := by
    rw [← Nat.testBit_lor, h]
  simp only [Nat.testBit_lor]
  cases ha : a.testBit k <;> cases hb : b.testBit k <;>
    cases hm : m.testBit k <;> rw [ha, hb] at hk <;> simp_all

theorem byteLe_testBit {a b : Nat} (h : ByteLe a b) {k : Nat}
    (hk : a.testBit k = true) : b.testBit k = true := by
  rw [← h, Nat.testBit_lor, hk, Bool.true_or]

theorem bitsLe_refl (xs : List Nat) : BitsLe xs xs :=
  ⟨rfl, fun _ _ => byteLe_refl _⟩

/-- Position facts about the two stores of a loop iteration: the
selector store hits a block-start offset whose block has group index
`x % 4`, and the data store hits a non-block-start offset of the frame. -/
theorem pix_positions {W H P y x : Nat} (hv : ValidGeometry W H P)
    (he : W / P / 4 % 2 = 0) (hy : y < H) (hx : x < W) :
    pixBase (resolve_geometry W H P) x % (resolve_geometry W H P).panel_bytes = 0 ∧
      pixBase (resolve_geometry W H P) x / (resolve_geometry W H P).panel_bytes / P =
        x % 4 ∧
      pixOff (resolve_geometry W H P) y x % (resolve_geometry W H P).panel_bytes ≠ 0 := by
  obtain ⟨hW, hH, hP, hWP, h4⟩ := hv
  have hcomm : W / P * P = P * (W / P) := Nat.mul_comm _ _
  have hWpc : W = P * (W / P) := by
    have := Nat.div_mul_cancel (Nat.dvd_of_mod_eq_zero hWP)
    omega
  have hpc0 : 0 < W / P := by
    rcases Nat.eq_zero_or_pos (W / P) with h0 | h0
    · rw [h0, Nat.mul_zero] at hWpc; omega
    · exact h0
  have hpc4 : W / P = 4 * (W / P / 4) := by
    have := Nat.div_mul_cancel (Nat.dvd_of_mod_eq_zero h4)
    omega
  have hpanel : x / (W / P) < P :=
    (Nat.div_lt_iff_lt_mul hpc0).mpr (by omega)
  have hq : x % (W / P) / 4 < W / P / 4 := by
    have hm : x % (W / P) < W / P := Nat.mod_lt _ hpc0
    omega
  have hcp : (x % (W / P) / 4) ^^^ 1 < W / P / 4 := xor_one_lt he hq
  have hreg : (H - 1 - y) / 8 < (H + 7) / 8 := by omega
  simp only [pixOff, pixBase, resolve_geometry]
  set rpc := (H + 7) / 8 with hrpc
  set pc := W / P with hpc
  set c := pc / 4 with hc
  set pB := c * rpc + 1 with hpB
  have hpB0 : 0 < pB := by omega
  have hbase : x % 4 * (P * pB) + x / pc * pB = (x % 4 * P + x / pc) * pB := by ring
  refine ⟨?_, ?_, ?_⟩
  · rw [hbase, Nat.mul_mod_left]
  · rw [hbase, Nat.mul_div_cancel _ hpB0]
    rw [show x % 4 * P + x / pc = P * (x % 4) + x / pc by ring]
    rw [Nat.mul_add_div hP, Nat.div_eq_of_lt hpanel, Nat.add_zero]
  · have m3 : ((x % pc / 4 ^^^ 1) + 1) * rpc ≤ c * rpc := Nat.mul_le_mul_right rpc hcp
    have e3 : ((x % pc / 4 ^^^ 1) + 1) * rpc = (x % pc / 4 ^^^ 1) * rpc + rpc := by ring
    have hd : 1 + (x % pc / 4 ^^^ 1) * rpc + (H - 1 - y) / 8 < pB := by omega
    rw [show x % 4 * (P * pB) + x / pc * pB + 1 + (x % pc / 4 ^^^ 1) * rpc +
        (H - 1 - y) / 8 = pB * (x % 4 * P + x / pc) +
        (1 + (x % pc / 4 ^^^ 1) * rpc + (H - 1 - y) / 8) by ring]
    rw [Nat.mul_add_mod, Nat.mod_eq_of_lt hd]
    omega

/-- One loop iteration, run over two snapshots where the second has at
least the pixels of the first, preserves bit inclusion of the partial
frames and the selector invariant of the first. -/
theorem stepPixel_mono {cfg : Geometry} {y x : Nat} {vA vB fA fB : List Nat}
    (hlen : vA.length = vB.length)
    (hJ : pixIdx cfg y x / 8 < vA.length)
    (hAB : BitsLe vA vB)
    (hfA : fA.length = cfg.frame_bytes) (hfB : fB.length = cfg.frame_bytes)
    (hb1 : pixBase cfg x + 1 ≤ pixOff cfg y x)
    (hb2 : pixOff cfg y x < cfg.frame_bytes)
    (hp1 : pixBase cfg x % cfg.panel_bytes = 0)
    (hp2 : pixBase cfg x / cfg.panel_bytes / cfg.panels = x % 4)
    (hp3 : pixOff cfg y x % cfg.panel_bytes ≠ 0)
    (hsel : SelInv cfg fA) (hle : BitsLe fA fB) :
    ∃ fA2 fB2,
      stepPixel cfg vA y x fA = some fA2 ∧
      stepPixel cfg vB y x fB = some fB2 ∧
      fA2.length = cfg.frame_bytes ∧ fB2.length = cfg.frame_bytes ∧
      SelInv cfg fA2 ∧ BitsLe fA2 fB2 := by
  have hJB : pixIdx cfg y x / 8 < vB.length := by omega
  have hbO : pixBase cfg x < fB.length := by omega
  have hbA : pixBase cfg x < fA.length := by omega
  have hoA : pixOff cfg y x < fA.length := by omega
  have hoB : pixOff cfg y x < fB.length := by omega
  have hne : pixBase cfg x ≠ pixOff cfg y x := by omega
  have hgrpA : (fA.set (pixBase cfg x) (x % 4)).getD (pixOff cfg y x) 0 =
      fA.getD (pixOff cfg y x) 0 := getD_set_ne hne _
  have hgrpB : (fB.set (pixBase cfg x) (x % 4)).getD (pixOff cfg y x) 0 =
      fB.getD (pixOff cfg y x) 0 := getD_set_ne hne _
  have hbitLe : (vA[pixIdx cfg y x / 8]).testBit (pixIdx cfg y x % 8) = true →
      (vB[pixIdx cfg y x / 8]).testBit (pixIdx cfg y x % 8) = true := by
    intro hA
    have hByte : ByteLe (vA.getD (pixIdx cfg y x / 8) 0)
        (vB.getD (pixIdx cfg y x / 8) 0) := hAB.2 _ hJ
    rw [getElem_eq_getD hJB]
    rw [getElem_eq_getD hJ] at hA
    exact byteLe_testBit hByte hA
  cases hA : (vA[pixIdx cfg y x / 8]).testBit (pixIdx cfg y x % 8) with
  | true =>
      have hB := hbitLe hA
      refine ⟨(fA.set (pixBase cfg x) (x % 4)).set (pixOff cfg y x)
          (fA.getD (pixOff cfg y x) 0 ||| 2 ^ pixBit cfg y),
        (fB.set (pixBase cfg x) (x % 4)).set (pixOff cfg y x)
          (fB.getD (pixOff cfg y x) 0 ||| 2 ^ pixBit cfg y), ?_, ?_, ?_, ?_, ?_, ?_⟩
      · rw [stepPixel, litPixel, List.getElem?_eq_getElem hJ, Option.map_some', hA,
          writePixel_eq hbA hoA, hgrpA]
      · rw [stepPixel, litPixel, List.getElem?_eq_getElem hJB, Option.map_some', hB,
          writePixel_eq hbO hoB, hgrpB]
      · rw [List.length_set, List.length_set]; exact hfA
      · rw [List.length_set, List.length_set]; exact hfB
      · intro b hblt hbmod
        by_cases hboff : b = pixOff cfg y x
        · exact absurd (hboff ▸ hbmod) hp3
        · rw [getD_set_ne (fun h => hboff h.symm)]
          by_cases hbbase : b = pixBase cfg x
          · right
            rw [hbbase, getD_set_self hbA]
            exact hp2.symm
          · rw [getD_set_ne (fun h => hbbase h.symm)]
            exact hsel b hblt hbmod
      · refine ⟨by rw [List.length_set, List.length_set, List.length_set,
          List.length_set, hfA, hfB], ?_⟩
        intro i hi
        rw [List.length_set, List.length_set, hfA] at hi
        by_cases hioff : i = pixOff cfg y x
        · rw [hioff, getD_set_self (by rw [List.length_set]; exact hoA),
            getD_set_self (by rw [List.length_set]; exact hoB)]
          exact byteLe_or_mono (hle.2 _ (by omega)) _
        · rw [getD_set_ne (fun h => hioff h.symm), getD_set_ne (fun h => hioff h.symm)]
          by_cases hibase : i = pixBase cfg x
          · rw [hibase, getD_set_self hbA, getD_set_self hbO]
            exact byteLe_refl _
          · rw [getD_set_ne (fun h => hibase h.symm),
              getD_set_ne (fun h => hibase h.symm)]
            exact hle.2 _ (by omega)
  | false =>
      cases hB : (vB[pixIdx cfg y x / 8]).testBit (pixIdx cfg y x % 8) with
      | false =>
          refine ⟨fA, fB, ?_, ?_, hfA, hfB, hsel, hle⟩
          · rw [stepPixel, litPixel, List.getElem?_eq_getElem hJ, Option.map_some', hA]
          · rw [stepPixel, litPixel, List.getElem?_eq_getElem hJB, Option.map_some', hB]
      | true =>
          refine ⟨fA, (fB.set (pixBase cfg x) (x % 4)).set (pixOff cfg y x)
              (fB.getD (pixOff cfg y x) 0 ||| 2 ^ pixBit cfg y), ?_, ?_, hfA, ?_,
            hsel, ?_⟩
          · rw [stepPixel, litPixel, List.getElem?_eq_getElem hJ, Option.map_some', hA]
          · rw [stepPixel, litPixel, List.getElem?_eq_getElem hJB, Option.map_some', hB,
              writePixel_eq hbO hoB, hgrpB]
          · rw [List.length_set, List.length_set]; exact hfB
          · refine ⟨by rw [List.length_set, List.length_set, hfA, hfB], ?_⟩
            intro i hi
            rw [hfA] at hi
            by_cases hioff : i = pixOff cfg y x
            · rw [hioff, getD_set_self (by rw [List.length_set]; exact hoB)]
              exact byteLe_or_right (hle.2 _ (by omega)) _
            · rw [getD_set_ne (fun h => hioff h.symm)]
              by_cases hibase : i = pixBase cfg x
              · rw [hibase, getD_set_self hbO]
                rcases hsel (pixBase cfg x) (by omega) hp1 with h0 | hg
                · rw [h0]
                  exact byteLe_zero _
                · rw [hg, hp2]
                  exact byteLe_refl _
              · rw [getD_set_ne (fun h => hibase h.symm)]
                exact hle.2 _ (by omega)

/-- Relational fold: running the encoder loop over two snapshots in the
bit-inclusion relation keeps the partial frames in the relation. -/
theorem foldl_mono {W H P : Nat} (hv : ValidGeometry W H P)
    (he : W / P / 4 % 2 = 0) {vA vB : List Nat}
    (hvA : vA.length = (W * H + 7) / 8) (hvB : vB.length = (W * H + 7) / 8)
    (hAB : BitsLe vA vB) (l : List (Nat × Nat))
    (hl : ∀ p ∈ l, p.1 < H ∧ p.2 < W) :
    ∀ fA fB : List Nat, fA.length = (resolve_geometry W H P).frame_bytes →
      fB.length = (resolve_geometry W H P).frame_bytes →
      SelInv (resolve_geometry W H P) fA → BitsLe fA fB →
      ∃ gA gB,
        l.foldl (fun acc p => acc.bind
          (stepPixel (resolve_geometry W H P) vA p.1 p.2)) (some fA) = some gA ∧
        l.foldl (fun acc p => acc.bind
          (stepPixel (resolve_geometry W H P) vB p.1 p.2)) (some fB) = some gB ∧
        BitsLe gA gB := by
  induction l with
  | nil => intro fA fB _ _ _ hle; exact ⟨fA, fB, rfl, rfl, hle⟩
  | cons p l ih =>
      intro fA fB hfA hfB hsel hle
      obtain ⟨hp1, hp2⟩ := hl p (List.mem_cons_self p l)
      obtain ⟨hq1, hq2⟩ := pixOff_lt hv he hp1 hp2
      obtain ⟨hr1, hr2, hr3⟩ := pix_positions hv he hp1 hp2
      have hlenAB : vA.length = vB.length := by omega
      have hJA : pixIdx (resolve_geometry W H P) p.1 p.2 / 8 < vA.length := by
        rw [hvA]; exact pixIdx_div_lt hp1 hp2
      obtain ⟨fA2, fB2, hsA, hsB, hlA, hlB, hsel2, hle2⟩ :=
        stepPixel_mono hlenAB hJA hAB hfA hfB hq1 hq2 hr1 hr2 hr3 hsel hle
      simp only [List.foldl_cons, Option.bind, hsA, hsB]
      exact ih (fun q hq => hl q (List.mem_cons_of_mem p hq)) fA2 fB2 hlA hlB hsel2 hle2

/-- Monotonicity of the encoder: adding set pixels to a snapshot can
only add set bits to the encoded frame. -/
theorem encode_mono {W H P : Nat} (hv : ValidGeometry W H P)
    (he : W / P / 4 % 2 = 0) {vA vB : List Nat}
    (hvA : vA.length = (W * H + 7) / 8) (hvB : vB.length = (W * H + 7) / 8)
    (hAB : BitsLe vA vB) :
    ∃ gA gB, encode (resolve_geometry W H P) vA = some gA ∧
      encode (resolve_geometry W H P) vB = some gB ∧ BitsLe gA gB := by
  apply foldl_mono hv he hvA hvB hAB (pixelPairs (resolve_geometry W H P))
    (fun p hp => mem_pixelPairs.mp hp)
  · exact List.length_replicate _ _
  · exact List.length_replicate _ _
  · intro b _ _
    left
    exact getD_replicate_zero _ _
  · exact bitsLe_refl _

/-! ### Claim theorems -/

/-- C1: for every logical coordinate `(x, y)` with `x < W` and `y < H`,
encoding the snapshot in which exactly one pixel is set — the pixel
whose source bit the section 4.2 formulas read at column `W-1-x` of row
`y`, i.e. linear bit index `y*W + (W-1-x)` — produces a frame with
exactly one data bit set, located by the section 4.2 formulas:
byte offset `group*groupBytes + panel*panelBytes + 1 +
colInPanel*regsPerCol + reg` with `group = x % GROUPS`,
`panel = x / panelCols`, `colInPanel = ((x % panelCols)/GROUPS) XOR 1`,
`reg = yRev/8`, `bit = 7 - (yRev % 8)`, `yRev = H-1-y`; every other
data byte (offsets not divisible by panelBytes = 25) is zero, and the
selector byte of the target block holds the group index. Geometry is
the compiled-in `W=128, H=19, P=4` of src/busefb.c. -/
theorem C1_single_pixel_roundtrip (x y : Nat) (hx : x < 128) (hy : y < 19) :
    ∃ f, encode busefbConfig (singleSnap 304 (y * 128 + (128 - 1 - x))) = some f ∧
      f.length = 400 ∧
      f.getD (x % 4 * 100 + x / 32 * 25 + 1 + (x % 32 / 4 ^^^ 1) * 3 +
        (19 - 1 - y) / 8) 0 = 2 ^ (7 - (19 - 1 - y) % 8) ∧
      (∀ j, j < 400 → j % 25 ≠ 0 →
        j ≠ x % 4 * 100 + x / 32 * 25 + 1 + (x % 32 / 4 ^^^ 1) * 3 +
          (19 - 1 - y) / 8 → f.getD j 0 = 0) ∧
      f.getD (x % 4 * 100 + x / 32 * 25) 0 = x % 4 := by
  have e1 : pixBase busefbConfig x = x % 4 * 100 + x / 32 * 25 := rfl
  have e2 : pixOff busefbConfig y x = x % 4 * 100 + x / 32 * 25 + 1 +
      (x % 32 / 4 ^^^ 1) * 3 + (19 - 1 - y) / 8 := rfl
  have e3 : pixIdx busefbConfig y x = y * 128 + (128 - 1 - x) := rfl
  have e4 : pixBit busefbConfig y = 7 - (19 - 1 - y) % 8 := rfl
  have henc := encode_single hy hx
  rw [e3] at henc
  obtain ⟨hb1, hb2⟩ := pixOff_lt_busefb hy hx
  have hBlt : pixBase busefbConfig x < (List.replicate 400 (0 : Nat)).length := by
    rw [List.length_replicate]; omega
  have hOlt : pixOff busefbConfig y x <
      ((List.replicate 400 (0 : Nat)).set (pixBase busefbConfig x) (x % 4)).length := by
    rw [List.length_set, List.length_replicate]; omega
  have hB25 : pixBase busefbConfig x % 25 = 0 :=
    (pix_positions (by decide) (by decide) hy hx).1
  have hO25 : pixOff busefbConfig y x % 25 ≠ 0 :=
    (pix_positions (by decide) (by decide) hy hx).2.2
  refine ⟨_, henc, ?_, ?_, ?_, ?_⟩
  · rw [List.length_set, List.length_set, List.length_replicate]
  · rw [← e2, ← e4, getD_set_self hOlt]
  · intro j hj hj25 hjoff
    rw [← e2] at hjoff
    rw [getD_set_ne (fun h => hjoff h.symm)]
    have hjB : pixBase busefbConfig x ≠ j := by omega
    rw [getD_set_ne hjB]
    exact getD_replicate_zero _ _
  · rw [← e1, getD_set_ne (by omega), getD_set_self hBlt]

/-- C1 witness: the single-pixel round trip at the interior pixel with
loop coordinates `x = 5`, `y = 7` (source bit at column 122, row 7). -/
theorem C1_witness :
    ∃ f, encode busefbConfig (singleSnap 304 (7 * 128 + (128 - 1 - 5))) = some f ∧
      f.length = 400 ∧
      f.getD (5 % 4 * 100 + 5 / 32 * 25 + 1 + (5 % 32 / 4 ^^^ 1) * 3 +
        (19 - 1 - 7) / 8) 0 = 2 ^ (7 - (19 - 1 - 7) % 8) ∧
      (∀ j, j < 400 → j % 25 ≠ 0 →
        j ≠ 5 % 4 * 100 + 5 / 32 * 25 + 1 + (5 % 32 / 4 ^^^ 1) * 3 +
          (19 - 1 - 7) / 8 → f.getD j 0 = 0) ∧
      f.getD (5 % 4 * 100 + 5 / 32 * 25) 0 = 5 % 4 :=
  C1_single_pixel_roundtrip 5 7 (by decide) (by decide)

/-- C2 counterexample: the snapshot whose only set pixel is `(0,0)`
(linear bit 0, the layout of spec section 6) does NOT get its data bit
at offset 6: encoding leaves frame byte 6 equal to 0, so bit 7 of byte 6
is clear. The claim's position is doubly off: the encoder reads the
mirrored column, so snapshot pixel `(0,0)` is processed in the loop
iteration `x = 127` and lands at base `3*100+3*25 = 375`, offset 396;
and the spec's own arithmetic `bit = 7-(18%8)` equals 5, not 7. -/
theorem C2_counterexample :
    (encode busefbConfig (singleSnap 304 0)).bind (fun f => f[6]?) = some 0 := by
  have henc := @encode_single 0 127 (by decide) (by decide)
  have e0 : pixIdx busefbConfig 0 127 = 0 := rfl
  rw [e0] at henc
  rw [henc]
  show (((List.replicate 400 0).set (pixBase busefbConfig 127) (127 % 4)).set
      (pixOff busefbConfig 0 127) (2 ^ pixBit busefbConfig 0))[6]? = some 0
  have eB : pixBase busefbConfig 127 = 375 := rfl
  have eO : pixOff busefbConfig 0 127 = 396 := rfl
  rw [eB, eO, List.getElem?_set_ne (by omega), List.getElem?_set_ne (by omega),
    List.getElem?_replicate, if_pos (by omega)]

/-- C2 amended: with geometry `W=128, H=19, P=4` (regsPerCol 3,
panelCols 32, colsPerGroup 8, panelBytes 25, groupBytes 100,
frameBytes 400), encoding the snapshot whose only set pixel is `(0,0)`
sets bit 5 (value 32 = 2^(7-(18%8))) of the frame byte at offset 396
(base = 3*100 + 3*25 = 375 for group 3, panel 3; colInPanel =
(31/4) XOR 1 = 6; reg = 18/8 = 2; offset = 375+1+6*3+2), writes the
selector 3 at byte 375, and leaves every other byte — `frame[0]`
included — equal to 0. -/
theorem C2_amended :
    ∃ f, encode busefbConfig (singleSnap 304 0) = some f ∧
      f.getD 396 0 = 32 ∧ f.getD 375 0 = 3 ∧ f.getD 0 0 = 0 ∧
      (∀ j, j < 400 → j ≠ 396 → j ≠ 375 → f.getD j 0 = 0) := by
  have henc := @encode_single 0 127 (by decide) (by decide)
  have e0 : pixIdx busefbConfig 0 127 = 0 := rfl
  have eB : pixBase busefbConfig 127 = 375 := rfl
  have eO : pixOff busefbConfig 0 127 = 396 := rfl
  have ebit : (2 : Nat) ^ pixBit busefbConfig 0 = 32 := rfl
  rw [e0, eB, eO, ebit] at henc
  refine ⟨_, henc, ?_, ?_, ?_, ?_⟩
  · rw [getD_set_self (by rw [List.length_set, List.length_replicate]; omega)]
  · rw [getD_set_ne (by omega), getD_set_self (by rw [List.length_replicate]; omega)]
  · rw [getD_set_ne (by omega), getD_set_ne (by omega)]
    exact getD_replicate_zero _ _
  · intro j hj h396 h375
    rw [getD_set_ne (fun h => h396 h.symm), getD_set_ne (fun h => h375 h.symm)]
    exact getD_replicate_zero _ _

/-- C3 counterexample: on the all-zero snapshot the selector byte at
offset 100 — the start of the panel block of group `g = 1`, panel 0,
where the claim requires the value 1 — is 0: `refresh_work_func` writes
a selector only in the loop body, which is skipped for clear pixels
(src/busefb.c lines 103-113), so an all-zero snapshot leaves the whole
`memset`-cleared frame untouched. -/
theorem C3_counterexample :
    (encode busefbConfig (List.replicate 304 0)).bind (fun f => f[100]?) = some 0 := by
  have h := encode_zero 128 19 4
  show (encode (resolve_geometry 128 19 4)
      (List.replicate ((128 * 19 + 7) / 8) 0)).bind (fun f => f[100]?) = some 0
  rw [h]
  show (List.replicate ((resolve_geometry 128 19 4).frame_bytes) (0 : Nat))[100]? = some 0
  rw [List.getElem?_replicate, if_pos (by decide)]

/-- C3 amended: for every all-zero input snapshot the encoder produces
the all-zero HardwareFrame — data bytes and selector bytes alike. A
selector byte is written (receiving its group index) only when some set
pixel maps into that panel block, so on all-zero input every selector
byte stays 0 rather than equalling its group index. Stated for every
geometry. -/
theorem C3_all_zero_frame (W H P : Nat) :
    encode (resolve_geometry W H P) (List.replicate ((W * H + 7) / 8) 0) =
      some (List.replicate (resolve_geometry W H P).frame_bytes 0) :=
  encode_zero W H P

/-- C4: for every valid geometry the derived constants of
`busefb_probe` (src/unnamed/part_001 lines 307-329) satisfy the spec's
equations: `regsPerCol = ceil(H/8)` (characterized as the least integer
with `8*regsPerCol >= H`), `panelCols = W/P`,
`colsPerGroup = panelCols/4`, `panelBytes = 1 + colsPerGroup*regsPerCol`,
`groupBytes = P*panelBytes` and
`frameBytes = GROUPS * P * (1 + colsPerGroup*regsPerCol)` with
`GROUPS = 4`. Determinism is by construction: `resolve_geometry` is a
pure function of `(W, H, P)`. -/
theorem C4_geometry_resolver (W H P : Nat) (_hv : ValidGeometry W H P) :
    (resolve_geometry W H P).regs_per_col = (H + 7) / 8 ∧
      H ≤ 8 * (resolve_geometry W H P).regs_per_col ∧
      8 * (resolve_geometry W H P).regs_per_col < H + 8 ∧
      (resolve_geometry W H P).panel_cols = W / P ∧
      (resolve_geometry W H P).cols_per_group = (resolve_geometry W H P).panel_cols / 4 ∧
      (resolve_geometry W H P).panel_bytes =
        1 + (resolve_geometry W H P).cols_per_group *
          (resolve_geometry W H P).regs_per_col ∧
      (resolve_geometry W H P).group_bytes = P * (resolve_geometry W H P).panel_bytes ∧
      (resolve_geometry W H P).frame_bytes =
        4 * P * (1 + (resolve_geometry W H P).cols_per_group *
          (resolve_geometry W H P).regs_per_col) := by
  refine ⟨rfl, ?_, ?_, rfl, rfl, ?_, rfl, ?_⟩
  · show H ≤ 8 * ((H + 7) / 8); omega
  · show 8 * ((H + 7) / 8) < H + 8; omega
  · show W / P / 4 * ((H + 7) / 8) + 1 = 1 + W / P / 4 * ((H + 7) / 8)
    exact Nat.add_comm _ _
  · show 4 * (P * (W / P / 4 * ((H + 7) / 8) + 1)) =
      4 * P * (1 + W / P / 4 * ((H + 7) / 8))
    ring

/-- C4 witness: the default geometry `W=128, H=19, P=4` is valid and
the resolver equations hold there (regsPerCol 3, panelCols 32,
colsPerGroup 8, panelBytes 25, groupBytes 100, frameBytes 400). -/
theorem C4_witness :
    ValidGeometry 128 19 4 ∧
      ((resolve_geometry 128 19 4).regs_per_col = (19 + 7) / 8 ∧
        19 ≤ 8 * (resolve_geometry 128 19 4).regs_per_col ∧
        8 * (resolve_geometry 128 19 4).regs_per_col < 19 + 8 ∧
        (resolve_geometry 128 19 4).panel_cols = 128 / 4 ∧
        (resolve_geometry 128 19 4).cols_per_group =
          (resolve_geometry 128 19 4).panel_cols / 4 ∧
        (resolve_geometry 128 19 4).panel_bytes =
          1 + (resolve_geometry 128 19 4).cols_per_group *
            (resolve_geometry 128 19 4).regs_per_col ∧
        (resolve_geometry 128 19 4).group_bytes =
          4 * (resolve_geometry 128 19 4).panel_bytes ∧
        (resolve_geometry 128 19 4).frame_bytes =
          4 * 4 * (1 + (resolve_geometry 128 19 4).cols_per_group *
            (resolve_geometry 128 19 4).regs_per_col)) :=
  ⟨by decide, C4_geometry_resolver 128 19 4 (by decide)⟩

/-- C5 counterexample: the geometry `W=4, H=1, P=1` satisfies every
divisibility constraint of the spec (`ValidGeometry` holds), its
snapshot is `ceil(4*1/8) = 1` byte, yet encoding the snapshot with its
single bit 0 set reaches the out-of-bounds branch: the loop iteration
`x = 3` computes `colInPanel = 0 XOR 1 = 1` with `colsPerGroup = 1`,
giving destination offset `3*2 + 0*2 + 1 + 1*1 + 0 = 8 = frameBytes`,
one past the end of the 8-byte frame — encode is partial. -/
theorem C5_counterexample :
    ValidGeometry 4 1 1 ∧ ((1 : Nat) :: []).length = (4 * 1 + 7) / 8 ∧
      encode (resolve_geometry 4 1 1) ((1 : Nat) :: []) = none := by
  decide

/-- C5 amended: for every valid geometry whose `colsPerGroup` is even
(so that the `XOR 1` column-pair swap stays inside the column range —
the spec's divisibility constraints alone do not guarantee this) and
every snapshot of exactly `ceil(W*H/8)` bytes, the encoder is total:
it returns a frame of exactly `frameBytes` bytes, reaching neither the
snapshot-read nor the frame-write out-of-bounds branch; it is
deterministic because `encode` is a pure function of its inputs. -/
theorem C5_encode_total (W H P : Nat) (hv : ValidGeometry W H P)
    (he : (resolve_geometry W H P).cols_per_group % 2 = 0) (vram : List Nat)
    (hlen : vram.length = (W * H + 7) / 8) :
    ∃ f, encode (resolve_geometry W H P) vram = some f ∧
      f.length = (resolve_geometry W H P).frame_bytes :=
  encode_some hv he hlen

/-- C5 witness: totality at the default geometry on the all-ones
snapshot (every pixel lit). -/
theorem C5_witness :
    ValidGeometry 128 19 4 ∧
      (resolve_geometry 128 19 4).cols_per_group % 2 = 0 ∧
      (List.replicate 304 (255 : Nat)).length = (128 * 19 + 7) / 8 ∧
      ∃ f, encode (resolve_geometry 128 19 4) (List.replicate 304 (255 : Nat)) =
          some f ∧ f.length = (resolve_geometry 128 19 4).frame_bytes :=
  ⟨by decide, by decide, by decide,
    C5_encode_total 128 19 4 (by decide) (by decide) _ (by decide)⟩

/-- C6: one undisturbed refresh cycle from `idle`: the scheduler visits
`encoding` once, then `transmitting g` immediately followed by
`holding g` for `g = 0, 1, 2, 3` in strictly increasing order — exactly
`GROUPS = 4` transfers, as the `spiStart` action list shows — and
returns to `idle`, the periodic policy of src/busefb.c (after group 3,
`process_next_group` resets `current_group` and waits for the next
timer tick; the chained variant src/unnamed/part_001 instead re-queues
`refresh_work`, returning to `encoding`). -/
theorem C6_refresh_cycle :
    stateTrace .idle cycleEvents =
      [.idle, .encoding, .transmitting 0, .holding 0, .transmitting 1, .holding 1,
        .transmitting 2, .holding 2, .transmitting 3, .holding 3, .idle] ∧
      spiStarts (actionsOf .idle cycleEvents) = [0, 1, 2, 3] ∧
      runEvents .idle cycleEvents = .idle := by
  decide

/-- C7: a periodic tick during a hold window is NOT coalesced.
`holding 0` is reachable (tick, encode, group-0 transfer), the hold
timer is then in flight, and a further tick drives the machine straight
back to `encoding`: `refresh_timer_callback` queues `refresh_work`
unconditionally (src/busefb.c lines 122-128) and the single-threaded
workqueue is empty during a hold window, so a new encode (resetting
`current_group`) begins while the previous cycle's chain is still in
flight — exactly the periodic-retrigger/chain mixing the claim says
never happens. -/
theorem C7_tick_during_hold_starts_new_cycle :
    runEvents .idle [.tick, .encodeDone, .spiDone true] = .holding 0 ∧
      runEvents .idle [.tick, .encodeDone, .spiDone true, .tick] = .encoding := by
  decide

/-- C8 counterexample: when the group-1 bus write reports failure
(`spiDone false`), the cycle continues exactly as on success — groups 2
and 3 are still transmitted (the `spiStart` list is `[0,1,2,3]`), the
machine ends the cycle normally in `idle`, and no warning action is
ever emitted: `refresh_work_func`/`process_next_group` ignore the
return value of `spi_sync` and contain no `dev_warn`
(src/busefb.c line 80). -/
theorem C8_counterexample :
    stateTrace .idle cycleEventsFail1 =
      [.idle, .encoding, .transmitting 0, .holding 0, .transmitting 1, .holding 1,
        .transmitting 2, .holding 2, .transmitting 3, .holding 3, .idle] ∧
      spiStarts (actionsOf .idle cycleEventsFail1) = [0, 1, 2, 3] ∧
      (actionsOf .idle cycleEventsFail1).contains .warn = false := by
  decide

/-- C8 amended: a bus write failure mid-frame has no effect on the
scheduler: the status returned by `spi_sync` is discarded, so the
transition out of `transmittingGroup(g)` is identical for success and
failure, no warning is logged, and the remaining groups of the frame
are transmitted exactly as on success. -/
theorem C8_failure_ignored :
    (∀ (g : Nat) (r : Bool), next (.transmitting g) (.spiDone r) =
        (.holding g, [.csSet 0, .armHold])) ∧
      stateTrace .idle cycleEventsFail1 = stateTrace .idle cycleEvents ∧
      (actionsOf .idle cycleEventsFail1).contains .warn = false :=
  ⟨fun _ _ => rfl, by decide, by decide⟩

/-- C9: there is an interleaving of `busefb_remove` with the driver's
own work items and timers in which the `cs_delay_timer` callback
executes after every buffer has been freed: `busefb_remove` cancels
both hrtimers first, but a `refresh_work` item queued just before
teardown is still pending; it runs before `destroy_workqueue` drains
the queue and re-arms `cs_delay_timer` via `hrtimer_start`
(src/busefb.c lines 84-86), which is never cancelled again and fires
after `destroy_workqueue` and the `vfree` calls — the use-after-free
the claim says is impossible in every interleaving. -/
theorem C9_timer_fires_after_free :
    ∃ s, tearRun tearInit tearBadSchedule = some s ∧ s.uafTimerCb = true ∧
      s.freed = true ∧ s.wqAlive = false := by
  decide

/-- C10: the encoder is monotone over the compiled-in geometry: for any
two snapshots of the declared 304-byte size, if every pixel set in the
first is also set in the second (`BitsLe`), then every bit set in the
encoded frame of the first is also set in the encoded frame of the
second — the loop only ORs data bits in and stores the one fixed value
`grp` into each block's selector byte, so adding set pixels never
clears a frame bit. -/
theorem C10_encode_monotone {vA vB : List Nat} (hvA : vA.length = 304)
    (hvB : vB.length = 304) (hAB : BitsLe vA vB) :
    ∃ fA fB, encode busefbConfig vA = some fA ∧
      encode busefbConfig vB = some fB ∧ BitsLe fA fB :=
  encode_mono (W := 128) (H := 19) (P := 4) (by decide) (by decide) hvA hvB hAB

/-- C10 witness: monotonicity applied to the all-zero snapshot below
the single-pixel snapshot of bit 0. -/
theorem C10_witness :
    (List.replicate 304 (0 : Nat)).length = 304 ∧
      (singleSnap 304 0).length = 304 ∧
      BitsLe (List.replicate 304 0) (singleSnap 304 0) ∧
      ∃ fA fB, encode busefbConfig (List.replicate 304 0) = some fA ∧
        encode busefbConfig (singleSnap 304 0) = some fB ∧ BitsLe fA fB :=
  ⟨by decide, by decide, by decide,
    C10_encode_monotone (by decide) (by decide) (by decide)⟩

end Busefb
